import Mathlib

/-!
Verification of the pyinotify native binding (`src/common/inotify_syscalls.c`)
and of the watch-registry / event-decoder design layer specified on top of it.

The first part shallowly embeds the three C wrapper functions
(`inotify_init`, `inotify_add_watch`, `inotify_rm_watch`).  Each C wrapper
parses its Python argument tuple, performs one kernel syscall, and either
raises an `IOError` built from `errno` (when the syscall returned `-1`) or
returns the syscall's integer result.  The kernel is modelled as an oracle:
a state type `K` together with one transition function per syscall, each
returning the new kernel state and a `SyscallRet` (the syscall's return
value plus the `errno` it left behind).

The second part models, from the specification's words, the watch table,
event decoder and dispatch layer that the spec designs above the raw
syscalls (the repository itself contains only the syscall wrappers).
-/

/-- Return value of one kernel syscall: the integer result and the `errno`
value the kernel left behind (meaningful when `result = -1`). -/
structure SyscallRet where
  result : Int
  errno : Nat
  deriving DecidableEq, Repr

/-- Outcome of one Python-level call into the binding: an error raised to
the host runtime, or an integer result. -/
inductive PyError where
  | typeError
  | ioError (errno : Nat)
  deriving DecidableEq, Repr

inductive PyResult where
  | ok (v : Int)
  | err (e : PyError)
  deriving DecidableEq, Repr

/-- The kernel oracle: a state together with the three inotify syscalls,
each a transition returning the new kernel state and the syscall's return. -/
structure Kernel (K : Type) where
  initSys : K → K × SyscallRet
  addSys : K → Int → String → Nat → K × SyscallRet
  rmSys : K → Int → Nat → K × SyscallRet

/-- Embedding of the C function `inotify_init` (inotify_syscalls.c:110-123).
`args = none` models a `PyArg_ParseTuple(args, "")` failure (the C code
returns `NULL` with a pending error set by the parser, before the
syscall); otherwise the syscall runs, `-1` becomes an `IOError` carrying
`errno`, any other result is returned as a Python int. -/
def inotify_init {K : Type} (kern : Kernel K) (k : K) (args : Option Unit) :
    K × PyResult :=
  match args with
  | none => (k, .err .typeError)
  | some _ =>
    let k' := (kern.initSys k).1
    let s := (kern.initSys k).2
    if s.result = -1 then (k', .err (.ioError s.errno)) else (k', .ok s.result)

/-- Embedding of the C function `inotify_add_watch` (inotify_syscalls.c:125-141).
Arguments parse as `(fd : int, name : string, mask : unsigned int)`
(`PyArg_ParseTuple(args, "isI", ...)`); parse failure returns before the
syscall. -/
def inotify_add_watch {K : Type} (kern : Kernel K) (k : K)
    (args : Option (Int × String × Nat)) : K × PyResult :=
  match args with
  | none => (k, .err .typeError)
  | some (fd, name, mask) =>
    let k' := (kern.addSys k fd name mask).1
    let s := (kern.addSys k fd name mask).2
    if s.result = -1 then (k', .err (.ioError s.errno)) else (k', .ok s.result)

/-- Embedding of the C function `inotify_rm_watch` (inotify_syscalls.c:143-158).
Arguments parse as `(fd : int, wd : unsigned int)`
(`PyArg_ParseTuple(args, "iI", ...)`). -/
def inotify_rm_watch {K : Type} (kern : Kernel K) (k : K)
    (args : Option (Int × Nat)) : K × PyResult :=
  match args with
  | none => (k, .err .typeError)
  | some (fd, wd) =>
    let k' := (kern.rmSys k fd wd).1
    let s := (kern.rmSys k fd wd).2
    if s.result = -1 then (k', .err (.ioError s.errno)) else (k', .ok s.result)

/-- The spec's error-translation contract, stated from its words: the errno
of a failed syscall (result `-1`) is surfaced verbatim in the raised error,
and a successful syscall's integer result is returned unchanged. -/
def specErrnoMapping (s : SyscallRet) : PyResult :=
  if s.result = -1 then .err (.ioError s.errno) else .ok s.result

/-- Concrete kernel oracle over a trivial state, used as a fixture. -/
def kernelA : Kernel Unit :=
  ⟨fun _ => ((), ⟨3, 0⟩), fun _ _ _ _ => ((), ⟨7, 0⟩), fun _ _ _ => ((), ⟨0, 0⟩)⟩

/-- A second kernel oracle, over a different state type and with different
internal state evolution, but returning the same syscall values as
`kernelA`; used as a fixture. -/
def kernelB : Kernel Nat :=
  ⟨fun n => (n + 1, ⟨3, 0⟩), fun n _ _ _ => (n * 2, ⟨7, 0⟩), fun n _ _ => (n + 5, ⟨0, 0⟩)⟩

/-- Modelled from the spec (§7): the error taxonomy of the design layer.
The repository's source contains only the raw syscall wrappers; the watch
registry, decoder and dispatch components below are absent from `src/` and
are modelled from the specification's words. -/
inductive WError where
  | invalidPath
  | watchLimitExceeded
  | unknownWatch
  | portUnavailable
  | portClosed
  | malformedEvent
  | kernelError (code : Nat)
  deriving DecidableEq, Repr

/-- Modelled from the spec (§3): a decoded event record — WatchId, event
mask, kernel cookie, and the (NUL-stripped) name suffix as raw bytes. -/
structure RawEvent where
  wd : Nat
  mask : Nat
  cookie : Nat
  name : List Nat
  deriving DecidableEq, Repr

/-- Little-endian encoding of `x` into exactly `n` bytes. -/
def toLE : Nat → Nat → List Nat
  | _, 0 => []
  | x, n + 1 => x % 256 :: toLE (x / 256) n

/-- Little-endian read of the first `n` bytes of a buffer. -/
def readLE : List Nat → Nat → Nat
  | _, 0 => 0
  | [], _ + 1 => 0
  | b :: bs, n + 1 => b + 256 * readLE bs n

/-- Modelled from the spec (§4.2, §6): one step of the event decoder.  The
fixed 16-byte header holds WatchId, mask, cookie and name length (four
little-endian 32-bit fields); the name field is `name_length` bytes,
NUL-padded, and is stripped at the first NUL byte.  A header or name that
would read past the buffer end is a `MalformedEvent`. -/
def decodeStep (next : List Nat → List RawEvent × Option WError) (buf : List Nat) :
    List RawEvent × Option WError :=
  if 16 ≤ buf.length then
    if 16 + readLE (buf.drop 12) 4 ≤ buf.length then
      (⟨readLE buf 4, readLE (buf.drop 4) 4, readLE (buf.drop 8) 4,
          ((buf.drop 16).take (readLE (buf.drop 12) 4)).takeWhile (fun b => b != 0)⟩ ::
        (next (buf.drop (16 + readLE (buf.drop 12) 4))).1,
       (next (buf.drop (16 + readLE (buf.drop 12) 4))).2)
    else ([], some WError.malformedEvent)
  else ([], some WError.malformedEvent)

/-- Fuel-indexed decoder loop; each step consumes at least 16 bytes, so a
fuel of `buf.length` always suffices (the zero-fuel arm is unreachable from
`decodeEvents`). -/
def decodeFuel : Nat → List Nat → List RawEvent × Option WError
  | _, [] => ([], none)
  | 0, _ :: _ => ([], some WError.malformedEvent)
  | fuel + 1, b :: bs => decodeStep (decodeFuel fuel) (b :: bs)

/-- Modelled from the spec (§4.2): decode a raw buffer into the sequence of
events produced before any failure, together with the failure, if any.  A
cursor walks the buffer record by record and stops exactly at the end. -/
def decodeEvents (buf : List Nat) : List RawEvent × Option WError :=
  decodeFuel buf.length buf

/-- A synthetic well-formed event record, used to build test buffers:
header fields plus the padded name bytes (declared length is
`name.length`). -/
structure EventRecord where
  wd : Nat
  mask : Nat
  cookie : Nat
  name : List Nat
  deriving DecidableEq, Repr

/-- Well-formedness of a synthetic record: header fields fit in 32 bits. -/
def WFRecord (r : EventRecord) : Prop :=
  r.wd < 2 ^ 32 ∧ r.mask < 2 ^ 32 ∧ r.cookie < 2 ^ 32 ∧ r.name.length < 2 ^ 32

instance (r : EventRecord) : Decidable (WFRecord r) := by
  unfold WFRecord; infer_instance

/-- The RawEvent a well-formed record decodes to: header fields verbatim,
name stripped at the first NUL byte. -/
def rawOfRecord (r : EventRecord) : RawEvent :=
  ⟨r.wd, r.mask, r.cookie, r.name.takeWhile (fun b => b != 0)⟩

/-- Wire format of one record: 16-byte little-endian header followed by the
name bytes. -/
def encodeRecord (r : EventRecord) : List Nat :=
  toLE r.wd 4 ++ (toLE r.mask 4 ++ (toLE r.cookie 4 ++ (toLE r.name.length 4 ++ r.name)))

/-- Concatenation of record encodings, back-to-back. -/
def encodeRecords : List EventRecord → List Nat
  | [] => []
  | r :: rs => encodeRecord r ++ encodeRecords rs

/-- Modelled from the spec (§3, §4.1): one Watch Table entry — WatchId,
watched path, event mask, optional cookie for pending rename pairing. -/
structure WatchEntry where
  wd : Nat
  path : String
  mask : Nat
  cookie : Option Nat
  deriving DecidableEq, Repr

/-- Modelled from the spec (§6): the Kernel Notification Port's internal
watch set — (WatchId, path, mask) triples — with a fresh-id counter, the
set of paths that exist and are accessible, and a watch-count limit. -/
structure KPort where
  watches : List (Nat × String × Nat)
  nextWd : Nat
  valid : List String
  maxWatches : Nat
  deriving DecidableEq, Repr

/-- Modelled from the spec (§6): the kernel `add_watch` call.  Re-adding a
watched path updates its mask and returns the existing WatchId; otherwise a
fresh WatchId is issued when the path is accessible and the limit allows. -/
def KPort.addWatch (kp : KPort) (path : String) (mask : Nat) :
    KPort × Except WError Nat :=
  match kp.watches.find? (fun w => w.2.1 == path) with
  | some w =>
    ({ kp with
        watches := kp.watches.map (fun v => if v.2.1 == path then (v.1, path, mask) else v) },
     .ok w.1)
  | none =>
    if kp.valid.contains path then
      if kp.watches.length < kp.maxWatches then
        ({ kp with
            watches := (kp.nextWd, path, mask) :: kp.watches,
            nextWd := kp.nextWd + 1 },
         .ok kp.nextWd)
      else (kp, .error .watchLimitExceeded)
    else (kp, .error .invalidPath)

/-- Modelled from the spec (§6): the kernel `rm_watch` call; removing an
unknown WatchId fails with a raw kernel error code. -/
def KPort.rmWatch (kp : KPort) (wd : Nat) : KPort × Except WError Unit :=
  if kp.watches.any (fun w => w.1 == wd) then
    ({ kp with watches := kp.watches.filter (fun w => w.1 != wd) }, .ok ())
  else (kp, .error (.kernelError 22))

/-- Modelled from the spec (§4.1): `lookup` — read-only, no side effects. -/
def lookupW (tbl : List WatchEntry) (wd : Nat) : Option WatchEntry :=
  tbl.find? (fun e => e.wd == wd)

/-- Modelled from the spec (§4.1): `add(path, mask)`.  Requests a kernel
watch; on success, re-adding a path already in the table updates the
existing entry's mask (and WatchId) rather than creating a second entry,
otherwise a new entry is appended.  Kernel errors are surfaced unchanged
and leave the table untouched. -/
def addW (kp : KPort) (tbl : List WatchEntry) (path : String) (mask : Nat) :
    KPort × List WatchEntry × Except WError Nat :=
  match (kp.addWatch path mask).2 with
  | .error e => ((kp.addWatch path mask).1, tbl, .error e)
  | .ok wd =>
    if tbl.any (fun e => e.path == path) then
      ((kp.addWatch path mask).1,
       tbl.map (fun e => if e.path == path then { e with wd := wd, mask := mask } else e),
       .ok wd)
    else
      ((kp.addWatch path mask).1, tbl ++ [⟨wd, path, mask, none⟩], .ok wd)

/-- Modelled from the spec (§4.1): `remove(WatchId)`.  Fails with
`UnknownWatch` when the id is not in the table; otherwise requests kernel
removal and deletes the local entry unconditionally — a kernel failure is
reported to the caller but the entry is still dropped. -/
def removeW (kp : KPort) (tbl : List WatchEntry) (wd : Nat) :
    KPort × List WatchEntry × Except WError Unit :=
  match lookupW tbl wd with
  | none => (kp, tbl, .error .unknownWatch)
  | some _ =>
    ((kp.rmWatch wd).1, tbl.filter (fun e => e.wd != wd), (kp.rmWatch wd).2)

/-- An invocation of the output handler: watched path, event mask, name. -/
structure HandlerCall where
  path : String
  mask : Nat
  name : List Nat
  deriving DecidableEq, Repr

/-- Modelled from the spec (§4.3): dispatch of one decoded event.  The
WatchId is resolved against the table; if found the handler is invoked with
(path, mask, name) and a terminal event deletes the entry after the handler
runs; if not found the event is discarded silently — no handler call, no
error. -/
def dispatchOne (terminal : Nat → Bool) (tbl : List WatchEntry) (ev : RawEvent) :
    List WatchEntry × Option HandlerCall × Option WError :=
  match lookupW tbl ev.wd with
  | none => (tbl, none, none)
  | some e =>
    (if terminal ev.mask then tbl.filter (fun x => x.wd != ev.wd) else tbl,
     some ⟨e.path, ev.mask, ev.name⟩, none)

/-- Whether a WatchId is currently active in the kernel's watch set. -/
def wdActive (kp : KPort) (wd : Nat) : Bool :=
  kp.watches.any (fun v => v.1 == wd)

/-- The spec's §3 invariant, stated from its words: every WatchId held in
the Watch Table corresponds to a currently active kernel watch. -/
def consistentTK (kp : KPort) (tbl : List WatchEntry) : Bool :=
  tbl.all (fun e => wdActive kp e.wd)

/-- Well-formedness of a (kernel, table) state, as maintained along
reachable states: table entries mirror kernel watches, kernel WatchIds are
distinct and below the fresh counter, and table paths are distinct. -/
def GoodState (kp : KPort) (tbl : List WatchEntry) : Prop :=
  (∀ e ∈ tbl, (e.wd, e.path, e.mask) ∈ kp.watches) ∧
  (kp.watches.map (fun w => w.1)).Nodup ∧
  (∀ w ∈ kp.watches, w.1 < kp.nextWd) ∧
  (tbl.map (fun e => e.path)).Nodup

instance (kp : KPort) (tbl : List WatchEntry) : Decidable (GoodState kp tbl) := by
  unfold GoodState; infer_instance

/-- Concrete notification-port state used as a fixture. -/
def kp0 : KPort :=
  ⟨[(1, "/tmp/x", 2)], 2, ["/tmp/x", "/tmp/y"], 8⟩

/-- Concrete watch table used as a fixture, consistent with `kp0`. -/
def tbl0 : List WatchEntry :=
  [⟨1, "/tmp/x", 2, none⟩]

/-- C1: each of the three exposed operations, called with well-typed
arguments, raises an error derived from the kernel's errno exactly when the
underlying syscall returns `-1`, and otherwise returns the syscall's integer
result; the errno value is passed through unchanged (`specErrnoMapping`). -/
theorem binding_errno_faithful {K : Type} (kern : Kernel K) (k : K)
    (fd : Int) (name : String) (mask wd : Nat) :
    (inotify_init kern k (some ())).2 = specErrnoMapping (kern.initSys k).2 ∧
    (inotify_add_watch kern k (some (fd, name, mask))).2 =
      specErrnoMapping (kern.addSys k fd name mask).2 ∧
    (inotify_rm_watch kern k (some (fd, wd))).2 =
      specErrnoMapping (kern.rmSys k fd wd).2 := by
  refine ⟨?_, ?_, ?_⟩ <;>
    simp only [inotify_init, inotify_add_watch, inotify_rm_watch, specErrnoMapping] <;>
    split <;> simp_all

/-- C9: the binding keeps no state of its own.  The Python-level result of
each operation is determined solely by the parsed arguments and the value
the kernel syscall returned: two calls against different kernel oracles, in
different kernel states, whose syscalls return the same value for the given
arguments, produce the same result. -/
theorem binding_stateless (K₁ K₂ : Type) (kern₁ : Kernel K₁) (kern₂ : Kernel K₂)
    (k₁ : K₁) (k₂ : K₂) (fd : Int) (name : String) (mask wd : Nat)
    (h1 : (kern₁.initSys k₁).2 = (kern₂.initSys k₂).2)
    (h2 : (kern₁.addSys k₁ fd name mask).2 = (kern₂.addSys k₂ fd name mask).2)
    (h3 : (kern₁.rmSys k₁ fd wd).2 = (kern₂.rmSys k₂ fd wd).2) :
    (inotify_init kern₁ k₁ (some ())).2 = (inotify_init kern₂ k₂ (some ())).2 ∧
    (inotify_add_watch kern₁ k₁ (some (fd, name, mask))).2 =
      (inotify_add_watch kern₂ k₂ (some (fd, name, mask))).2 ∧
    (inotify_rm_watch kern₁ k₁ (some (fd, wd))).2 =
      (inotify_rm_watch kern₂ k₂ (some (fd, wd))).2 := by
  refine ⟨?_, ?_, ?_⟩ <;>
    simp only [inotify_init, inotify_add_watch, inotify_rm_watch, h1, h2, h3] <;>
    split <;> rfl

/-- Witness for C9 at concrete inputs: two kernels over different state
types with identical syscall returns give identical results. -/
theorem binding_stateless_witness :
    (inotify_init kernelA () (some ())).2 = (inotify_init kernelB 0 (some ())).2 ∧
    (inotify_add_watch kernelA () (some (5, "/tmp/x", 8))).2 =
      (inotify_add_watch kernelB 0 (some (5, "/tmp/x", 8))).2 ∧
    (inotify_rm_watch kernelA () (some (5, 2))).2 =
      (inotify_rm_watch kernelB 0 (some (5, 2))).2 :=
  binding_stateless Unit Nat kernelA kernelB () 0 5 "/tmp/x" 8 2 rfl rfl rfl

/-- C10: when argument parsing fails, `inotify_add_watch` and
`inotify_rm_watch` return a parse error before the kernel syscall runs:
the kernel state is returned unchanged, for every kernel oracle. -/
theorem binding_parse_error_atomic {K : Type} (kern : Kernel K) (k : K) :
    inotify_add_watch kern k none = (k, .err .typeError) ∧
    inotify_rm_watch kern k none = (k, .err .typeError) :=
  ⟨rfl, rfl⟩

theorem toLE_length (x n : Nat) : (toLE x n).length = n := by
  induction n generalizing x with
  | zero => rfl
  | succ n ih => simp [toLE, ih]

theorem readLE_toLE_append (n x : Nat) (rest : List Nat) :
    readLE (toLE x n ++ rest) n = x % 256 ^ n := by
  induction n generalizing x with
  | zero => simp [toLE, readLE, Nat.mod_one]
  | succ n ih =>
    have h : (256 : Nat) ^ (n + 1) = 256 * 256 ^ n := by rw [pow_succ]; ring
    show x % 256 + 256 * readLE (toLE (x / 256) n ++ rest) n = x % 256 ^ (n + 1)
    rw [ih, h, Nat.mod_mul]

theorem readLE4_toLE (x : Nat) (rest : List Nat) (hx : x < 2 ^ 32) :
    readLE (toLE x 4 ++ rest) 4 = x := by
  rw [readLE_toLE_append]
  exact Nat.mod_eq_of_lt (by norm_num at hx ⊢; omega)

theorem drop_toLE4 (x : Nat) (l : List Nat) : (toLE x 4 ++ l).drop 4 = l := by
  have h : (toLE x 4).length = 4 := toLE_length x 4
  calc (toLE x 4 ++ l).drop 4
      = (toLE x 4 ++ l).drop (toLE x 4).length := by rw [h]
    _ = l := List.drop_left _ _

theorem decodeFuel_nil (f : Nat) : decodeFuel f [] = ([], none) := by
  cases f <;> rfl

theorem decodeFuel_succ (f : Nat) (buf : List Nat) (h : buf ≠ []) :
    decodeFuel (f + 1) buf = decodeStep (decodeFuel f) buf := by
  cases buf with
  | nil => exact absurd rfl h
  | cons b bs => rfl

theorem decodeFuel_congr (f₁ : Nat) : ∀ (f₂ : Nat) (buf : List Nat),
    buf.length ≤ f₁ → buf.length ≤ f₂ → decodeFuel f₁ buf = decodeFuel f₂ buf := by
  induction f₁ with
  | zero =>
    intro f₂ buf h1 _
    have hb : buf = [] := List.length_eq_zero.mp (Nat.le_zero.mp h1)
    subst hb
    rw [decodeFuel_nil, decodeFuel_nil]
  | succ f ih =>
    intro f₂ buf h1 h2
    cases buf with
    | nil => rw [decodeFuel_nil, decodeFuel_nil]
    | cons b bs =>
      cases f₂ with
      | zero => simp at h2
      | succ g =>
        rw [decodeFuel_succ f _ (by simp), decodeFuel_succ g _ (by simp)]
        unfold decodeStep
        by_cases h16 : 16 ≤ (b :: bs).length
        · rw [if_pos h16, if_pos h16]
          by_cases hlen : 16 + readLE ((b :: bs).drop 12) 4 ≤ (b :: bs).length
          · rw [if_pos hlen, if_pos hlen]
            have hrec : decodeFuel f ((b :: bs).drop (16 + readLE ((b :: bs).drop 12) 4)) =
                decodeFuel g ((b :: bs).drop (16 + readLE ((b :: bs).drop 12) 4)) := by
              apply ih
              · simp only [List.length_drop]
                simp only [List.length_cons] at h1 h16 ⊢
                omega
              · simp only [List.length_drop]
                simp only [List.length_cons] at h2 h16 ⊢
                omega
            rw [hrec]
          · rw [if_neg hlen, if_neg hlen]
        · rw [if_neg h16, if_neg h16]

theorem decodeEvents_nil : decodeEvents [] = ([], none) := rfl

theorem decodeEvents_cons (r : EventRecord) (B : List Nat) (h : WFRecord r) :
    decodeEvents (encodeRecord r ++ B) =
      (rawOfRecord r :: (decodeEvents B).1, (decodeEvents B).2) := by
  obtain ⟨hw, hm, hc, hn⟩ := h
  have hbuf : encodeRecord r ++ B =
      toLE r.wd 4 ++ (toLE r.mask 4 ++ (toLE r.cookie 4 ++
        (toLE r.name.length 4 ++ (r.name ++ B)))) := by
    simp [encodeRecord, List.append_assoc]
  have hL : (encodeRecord r ++ B).length = 16 + r.name.length + B.length := by
    rw [hbuf]
    simp [toLE_length]
    omega
  have hne : encodeRecord r ++ B ≠ [] :=
    List.ne_nil_of_length_pos (by rw [hL]; omega)
  have d4 : (encodeRecord r ++ B).drop 4 =
      toLE r.mask 4 ++ (toLE r.cookie 4 ++ (toLE r.name.length 4 ++ (r.name ++ B))) := by
    rw [hbuf, drop_toLE4]
  have d8 : (encodeRecord r ++ B).drop 8 =
      toLE r.cookie 4 ++ (toLE r.name.length 4 ++ (r.name ++ B)) := by
    rw [show (8 : Nat) = 4 + 4 from rfl, ← List.drop_drop, d4, drop_toLE4]
  have d12 : (encodeRecord r ++ B).drop 12 =
      toLE r.name.length 4 ++ (r.name ++ B) := by
    rw [show (12 : Nat) = 8 + 4 from rfl, ← List.drop_drop, d8, drop_toLE4]
  have d16 : (encodeRecord r ++ B).drop 16 = r.name ++ B := by
    rw [show (16 : Nat) = 12 + 4 from rfl, ← List.drop_drop, d12, drop_toLE4]
  have hlenread : readLE ((encodeRecord r ++ B).drop 12) 4 = r.name.length := by
    rw [d12, readLE4_toLE _ _ hn]
  have dname : (encodeRecord r ++ B).drop (16 + r.name.length) = B := by
    rw [← List.drop_drop, d16, List.drop_left]
  have hstep : decodeEvents (encodeRecord r ++ B) =
      decodeStep (decodeFuel (15 + r.name.length + B.length)) (encodeRecord r ++ B) := by
    unfold decodeEvents
    rw [hL, show 16 + r.name.length + B.length = (15 + r.name.length + B.length) + 1 from by omega,
      decodeFuel_succ _ _ hne]
  rw [hstep]
  unfold decodeStep
  rw [if_pos (by rw [hL]; omega), hlenread, if_pos (by rw [hL]; omega)]
  rw [dname]
  have hfuel : decodeFuel (15 + r.name.length + B.length) B = decodeEvents B := by
    unfold decodeEvents
    exact decodeFuel_congr _ _ _ (by omega) le_rfl
  rw [hfuel]
  have hwd : readLE (encodeRecord r ++ B) 4 = r.wd := by
    rw [hbuf, readLE4_toLE _ _ hw]
  have hmask : readLE ((encodeRecord r ++ B).drop 4) 4 = r.mask := by
    rw [d4, readLE4_toLE _ _ hm]
  have hcookie : readLE ((encodeRecord r ++ B).drop 8) 4 = r.cookie := by
    rw [d8, readLE4_toLE _ _ hc]
  have hname : ((encodeRecord r ++ B).drop 16).take r.name.length = r.name := by
    rw [d16]
    exact List.take_left _ _
  rw [hwd, hmask, hcookie, hname]
  rfl

theorem decodeEvents_append_records (rs : List EventRecord) (B : List Nat)
    (h : ∀ r ∈ rs, WFRecord r) :
    decodeEvents (encodeRecords rs ++ B) =
      (rs.map rawOfRecord ++ (decodeEvents B).1, (decodeEvents B).2) := by
  induction rs with
  | nil => simp [encodeRecords]
  | cons r rs ih =>
    have hr : WFRecord r := h r (by simp)
    have hrs : ∀ x ∈ rs, WFRecord x := fun x hx => h x (by simp [hx])
    rw [encodeRecords, List.append_assoc, decodeEvents_cons r _ hr, ih hrs]
    simp

/-- C3: decoding a buffer formed by concatenating N well-formed event
records yields exactly those N RawEvents, in record order, with the header
fields of each record reproduced exactly (and its name stripped of NUL
padding), and no decode error. -/
theorem decode_roundtrip (rs : List EventRecord) (h : ∀ r ∈ rs, WFRecord r) :
    decodeEvents (encodeRecords rs) = (rs.map rawOfRecord, none) := by
  have hh := decodeEvents_append_records rs [] h
  simpa [decodeEvents_nil] using hh

/-- Witness for C3 at a concrete two-record buffer. -/
theorem decode_roundtrip_witness :
    decodeEvents (encodeRecords [⟨1, 2, 0, [97, 0, 0, 0]⟩, ⟨3, 4, 5, []⟩]) =
      ([⟨1, 2, 0, [97, 0, 0, 0]⟩, ⟨3, 4, 5, []⟩].map rawOfRecord, none) :=
  decode_roundtrip _ (by decide)

/-- C4: decoding a buffer of complete well-formed records followed by a
final record whose declared name length reads past the buffer end fails
with `MalformedEvent`, still produces every prior complete record, and
produces no event from the truncated trailing record. -/
theorem decode_truncated (rs : List EventRecord) (wd mask cookie len : Nat)
    (frag : List Nat) (h : ∀ r ∈ rs, WFRecord r) (hlen : len < 2 ^ 32)
    (htr : frag.length < len) :
    decodeEvents (encodeRecords rs ++
        (toLE wd 4 ++ (toLE mask 4 ++ (toLE cookie 4 ++ (toLE len 4 ++ frag))))) =
      (rs.map rawOfRecord, some WError.malformedEvent) := by
  set tail := toLE wd 4 ++ (toLE mask 4 ++ (toLE cookie 4 ++ (toLE len 4 ++ frag)))
    with htail
  have htL : tail.length = 16 + frag.length := by
    simp [htail, toLE_length]
    omega
  have htne : tail ≠ [] := List.ne_nil_of_length_pos (by rw [htL]; omega)
  have t4 : tail.drop 4 = toLE mask 4 ++ (toLE cookie 4 ++ (toLE len 4 ++ frag)) := by
    rw [htail, drop_toLE4]
  have t8 : tail.drop 8 = toLE cookie 4 ++ (toLE len 4 ++ frag) := by
    rw [show (8 : Nat) = 4 + 4 from rfl, ← List.drop_drop, t4, drop_toLE4]
  have t12 : tail.drop 12 = toLE len 4 ++ frag := by
    rw [show (12 : Nat) = 8 + 4 from rfl, ← List.drop_drop, t8, drop_toLE4]
  have hread : readLE (tail.drop 12) 4 = len := by
    rw [t12, readLE4_toLE _ _ hlen]
  have htaildec : decodeEvents tail = ([], some WError.malformedEvent) := by
    unfold decodeEvents
    rw [htL, show 16 + frag.length = (15 + frag.length) + 1 from by omega,
      decodeFuel_succ _ _ htne]
    unfold decodeStep
    rw [if_pos (by rw [htL]; omega), hread, if_neg (by rw [htL]; omega)]
  rw [decodeEvents_append_records rs tail h, htaildec]
  simp

/-- Witness for C4 at a concrete buffer: one complete record followed by a
header declaring a 4-byte name with only one name byte present. -/
theorem decode_truncated_witness :
    decodeEvents (encodeRecords [⟨1, 2, 3, [97, 0, 0, 0]⟩] ++
        (toLE 9 4 ++ (toLE 8 4 ++ (toLE 7 4 ++ (toLE 4 4 ++ [98]))))) =
      ([⟨1, 2, 3, [97, 0, 0, 0]⟩].map rawOfRecord, some WError.malformedEvent) :=
  decode_truncated _ 9 8 7 4 [98] (by decide) (by decide) (by decide)

theorem lookupW_filter_ne (tbl : List WatchEntry) (wd : Nat) :
    lookupW (tbl.filter (fun e => e.wd != wd)) wd = none := by
  rw [lookupW, List.find?_eq_none]
  intro x hx
  have hpx := List.of_mem_filter hx
  simp at hpx ⊢
  exact hpx

theorem lookupW_map_update (path : String) (mask wd : Nat) :
    ∀ tbl : List WatchEntry, (∀ e ∈ tbl, e.path ≠ path → e.wd ≠ wd) →
    (∃ e ∈ tbl, e.path = path) →
    ∃ e, lookupW
        (tbl.map (fun e => if e.path == path then { e with wd := wd, mask := mask } else e)) wd
        = some e ∧ e.wd = wd ∧ e.path = path ∧ e.mask = mask := by
  intro tbl
  induction tbl with
  | nil => intro _ hex; simp at hex
  | cons h t ih =>
    intro hne hex
    by_cases hp : h.path = path
    · refine ⟨{ h with wd := wd, mask := mask }, ?_, rfl, hp, rfl⟩
      simp only [List.map_cons]
      rw [if_pos (by simpa using hp)]
      exact List.find?_cons_of_pos _ (by simp)
    · have hh : h.wd ≠ wd := hne h (by simp) hp
      have hex' : ∃ e ∈ t, e.path = path := by
        obtain ⟨e, he, hep⟩ := hex
        rcases List.mem_cons.mp he with rfl | he'
        · exact absurd hep hp
        · exact ⟨e, he', hep⟩
      obtain ⟨e', hfind, h1, h2, h3⟩ := ih (fun x hx hxp => hne x (by simp [hx]) hxp) hex'
      refine ⟨e', ?_, h1, h2, h3⟩
      simp only [List.map_cons]
      rw [if_neg (by simpa using hp), lookupW, List.find?_cons_of_neg _ (by simp [hh])]
      exact hfind

theorem lookupW_append_new (path : String) (mask wd : Nat) (cookie : Option Nat) :
    ∀ tbl : List WatchEntry, (∀ e ∈ tbl, e.wd ≠ wd) →
    lookupW (tbl ++ [⟨wd, path, mask, cookie⟩]) wd = some ⟨wd, path, mask, cookie⟩ := by
  intro tbl
  induction tbl with
  | nil => simp [lookupW]
  | cons h t ih =>
    intro hne
    have hh : h.wd ≠ wd := hne h (by simp)
    simp only [List.cons_append, lookupW]
    rw [List.find?_cons_of_neg _ (by simp [hh])]
    exact ih (fun x hx => hne x (by simp [hx]))

theorem addWatch_ok_cases (kp : KPort) (path : String) (mask wd : Nat)
    (h : (kp.addWatch path mask).2 = .ok wd) :
    (∃ w ∈ kp.watches, w.1 = wd ∧ w.2.1 = path) ∨ wd = kp.nextWd := by
  unfold KPort.addWatch at h
  cases hf : kp.watches.find? (fun w => w.2.1 == path) with
  | some w =>
    rw [hf] at h
    simp at h
    left
    refine ⟨w, List.mem_of_find?_eq_some hf, h, ?_⟩
    have := List.find?_some hf
    simpa using this
  | none =>
    rw [hf] at h
    by_cases hv : kp.valid.contains path
    · rw [if_pos hv] at h
      by_cases hm : kp.watches.length < kp.maxWatches
      · rw [if_pos hm] at h
        simp at h
        exact Or.inr h.symm
      · rw [if_neg hm] at h
        simp at h
    · rw [if_neg hv] at h
      simp at h

/-- C2: a successful `add(path, mask)` followed immediately by `lookup` of
the returned WatchId yields an entry whose path and mask are the ones given
to `add`, in any well-formed registry state. -/
theorem add_lookup_roundtrip (kp : KPort) (tbl : List WatchEntry) (path : String)
    (mask wd : Nat) (hg : GoodState kp tbl)
    (hok : (addW kp tbl path mask).2.2 = .ok wd) :
    ∃ e, lookupW (addW kp tbl path mask).2.1 wd = some e ∧
      e.path = path ∧ e.mask = mask := by
  obtain ⟨hmem, hndK, hlt, hndP⟩ := hg
  have hres : (kp.addWatch path mask).2 = .ok wd := by
    revert hok
    unfold addW
    cases hr : (kp.addWatch path mask).2 with
    | error e => intro hok; simp at hok
    | ok wd' =>
      intro hok
      have hww : wd' = wd := by
        by_cases ht : tbl.any (fun e => e.path == path) = true
        · simpa [ht] using hok
        · simp only [Bool.not_eq_true] at ht
          simpa [ht] using hok
      rw [hww]
  have hne : ∀ e ∈ tbl, e.path ≠ path → e.wd ≠ wd := by
    intro e he hep hew
    rcases addWatch_ok_cases kp path mask wd hres with ⟨w, hwmem, hw1, hw2⟩ | hfresh
    · have heq : (e.wd, e.path, e.mask) = w :=
        List.inj_on_of_nodup_map hndK (hmem e he) hwmem (by simp [hew, hw1])
      apply hep
      rw [show e.path = (e.wd, e.path, e.mask).2.1 from rfl, heq, hw2]
    · have hlt' := hlt _ (hmem e he)
      simp at hlt'
      omega
  simp only [addW, hres]
  cases ht : tbl.any (fun e => e.path == path) with
  | true =>
    rw [if_pos rfl]
    have hex : ∃ e ∈ tbl, e.path = path := by
      simpa [List.any_eq_true] using ht
    obtain ⟨e, hfind, _, h2, h3⟩ := lookupW_map_update path mask wd tbl hne hex
    exact ⟨e, hfind, h2, h3⟩
  | false =>
    rw [if_neg (by simp)]
    have hnp : ∀ e ∈ tbl, e.path ≠ path := by
      intro e he
      have := List.any_eq_false.mp ht e he
      simpa using this
    have hne2 : ∀ e ∈ tbl, e.wd ≠ wd := fun e he => hne e he (hnp e he)
    exact ⟨⟨wd, path, mask, none⟩, lookupW_append_new path mask wd none tbl hne2, rfl, rfl⟩

/-- Witness for C2: adding a fresh valid path to the fixture state and
looking up the returned WatchId. -/
theorem add_lookup_roundtrip_witness :
    ∃ e, lookupW (addW kp0 tbl0 "/tmp/y" 4).2.1 2 = some e ∧
      e.path = "/tmp/y" ∧ e.mask = 4 :=
  add_lookup_roundtrip kp0 tbl0 "/tmp/y" 4 2 (by decide) rfl

/-- C5: for a WatchId present in the Watch Table, `remove` deletes the
local entry unconditionally — a subsequent `lookup` yields `none` for every
kernel outcome — and a kernel removal failure is still reported to the
caller. -/
theorem remove_drops_entry (kp : KPort) (tbl : List WatchEntry) (wd : Nat)
    (hpres : lookupW tbl wd ≠ none) :
    lookupW (removeW kp tbl wd).2.1 wd = none ∧
    (∀ er, (kp.rmWatch wd).2 = .error er → (removeW kp tbl wd).2.2 = .error er) := by
  unfold removeW
  cases hl : lookupW tbl wd with
  | none => exact absurd hl hpres
  | some e =>
    refine ⟨lookupW_filter_ne tbl wd, ?_⟩
    intro er her
    simpa using her

/-- Witness for C5: removing the watch present in the fixture table. -/
theorem remove_drops_entry_witness :
    lookupW (removeW kp0 tbl0 1).2.1 1 = none ∧
    (∀ er, (kp0.rmWatch 1).2 = .error er → (removeW kp0 tbl0 1).2.2 = .error er) :=
  remove_drops_entry kp0 tbl0 1 (by decide)

/-- C6: dispatching a decoded event whose WatchId is not in the Watch Table
invokes no handler and raises no error; the table is left unchanged and the
event is silently discarded. -/
theorem dispatch_unknown_wd (terminal : Nat → Bool) (tbl : List WatchEntry)
    (ev : RawEvent) (h : lookupW tbl ev.wd = none) :
    dispatchOne terminal tbl ev = (tbl, none, none) := by
  unfold dispatchOne
  rw [h]

/-- Witness for C6: dispatching an event for the absent WatchId 9. -/
theorem dispatch_unknown_wd_witness :
    dispatchOne (fun _ => false) tbl0 ⟨9, 2, 0, []⟩ = (tbl0, none, none) :=
  dispatch_unknown_wd (fun _ => false) tbl0 ⟨9, 2, 0, []⟩ (by decide)

theorem filter_map_no_match (path : String) (mask wd : Nat) :
    ∀ t : List WatchEntry, (∀ e ∈ t, e.path ≠ path) →
    (t.map (fun e => if e.path == path then { e with wd := wd, mask := mask } else e)).filter
        (fun e => e.path == path) = [] := by
  intro t
  induction t with
  | nil => intro _; rfl
  | cons h t ih =>
    intro hall
    have hp : h.path ≠ path := hall h (by simp)
    simp only [List.map_cons]
    rw [if_neg (by simpa using hp), List.filter_cons_of_neg (by simpa using hp)]
    exact ih (fun e he => hall e (by simp [he]))

theorem filter_map_update (path : String) (mask wd : Nat) :
    ∀ tbl : List WatchEntry, (tbl.map (fun e => e.path)).Nodup →
    tbl.any (fun e => e.path == path) = true →
    ∃ c, (tbl.map (fun e => if e.path == path then { e with wd := wd, mask := mask } else e)).filter
        (fun e => e.path == path) = [⟨wd, path, mask, c⟩] := by
  intro tbl
  induction tbl with
  | nil => intro _ hany; simp at hany
  | cons h t ih =>
    intro hnd hany
    by_cases hp : h.path = path
    · have hnotin : ∀ e ∈ t, e.path ≠ path := by
        intro e he heq
        have hmem : h.path ∈ t.map (fun e => e.path) := by
          rw [hp, ← heq]
          exact List.mem_map_of_mem _ he
        exact (List.nodup_cons.mp hnd).1 hmem
      refine ⟨h.cookie, ?_⟩
      simp only [List.map_cons]
      rw [if_pos (by simpa using hp)]
      rw [List.filter_cons_of_pos (by simpa using hp)]
      rw [filter_map_no_match path mask wd t hnotin]
      simp [hp]
    · have hany' : t.any (fun e => e.path == path) = true := by
        rcases List.any_eq_true.mp hany with ⟨e, he, hpe⟩
        rcases List.mem_cons.mp he with rfl | he'
        · exact absurd (by simpa using hpe) hp
        · exact List.any_eq_true.mpr ⟨e, he', hpe⟩
      obtain ⟨c, hc⟩ := ih (List.nodup_cons.mp hnd).2 hany'
      refine ⟨c, ?_⟩
      simp only [List.map_cons]
      rw [if_neg (by simpa using hp), List.filter_cons_of_neg (by simpa using hp)]
      exact hc

/-- C7: re-adding a path that already has an active watch updates the mask
of the existing entry rather than creating a second one: afterwards the
table holds exactly one entry for that path, and its mask is the new mask. -/
theorem add_duplicate_updates (kp : KPort) (tbl : List WatchEntry) (path : String)
    (mask : Nat) (hg : GoodState kp tbl)
    (hpres : tbl.any (fun e => e.path == path) = true) :
    ∃ w c, ((addW kp tbl path mask).2.1).filter (fun e => e.path == path) =
      [⟨w, path, mask, c⟩] := by
  obtain ⟨hmem, hndK, hlt, hndP⟩ := hg
  have hex : ∃ e ∈ tbl, e.path = path := by
    simpa [List.any_eq_true] using hpres
  obtain ⟨e0, he0, hp0⟩ := hex
  have hk : ∃ w ∈ kp.watches, (fun w => w.2.1 == path) w = true :=
    ⟨(e0.wd, e0.path, e0.mask), hmem e0 he0, by simpa using hp0⟩
  rcases hf : kp.watches.find? (fun w => w.2.1 == path) with _ | w₀
  · rw [List.find?_eq_none] at hf
    obtain ⟨w, hwmem, hw⟩ := hk
    exact absurd hw (by simpa using hf w hwmem)
  · have hres : (kp.addWatch path mask).2 = .ok w₀.1 := by
      unfold KPort.addWatch
      rw [hf]
    simp only [addW, hres]
    rw [if_pos hpres]
    obtain ⟨c, hc⟩ := filter_map_update path mask w₀.1 tbl hndP hpres
    exact ⟨w₀.1, c, hc⟩

/-- Witness for C7: re-adding the fixture's watched path with a new mask. -/
theorem add_duplicate_updates_witness :
    ∃ w c, ((addW kp0 tbl0 "/tmp/x" 32).2.1).filter (fun e => e.path == "/tmp/x") =
      [⟨w, "/tmp/x", 32, c⟩] :=
  add_duplicate_updates kp0 tbl0 "/tmp/x" 32 (by decide) (by decide)

theorem any_wd_map_update (l : List (Nat × String × Nat)) (path : String) (mask x : Nat) :
    ((l.map (fun v => if v.2.1 == path then (v.1, path, mask) else v)).any
        (fun v => v.1 == x)) = l.any (fun v => v.1 == x) := by
  rw [List.any_map]
  congr 1
  funext v
  by_cases hv : v.2.1 == path <;> simp [Function.comp, hv]

theorem addW_kp_eq (kp : KPort) (tbl : List WatchEntry) (path : String) (mask : Nat) :
    (addW kp tbl path mask).1 = (kp.addWatch path mask).1 := by
  unfold addW
  cases hr : (kp.addWatch path mask).2 with
  | error e => rfl
  | ok wd =>
    simp only []
    split <;> rfl

theorem addWatch_preserves_active (kp : KPort) (path : String) (mask x : Nat)
    (h : wdActive kp x = true) : wdActive (kp.addWatch path mask).1 x = true := by
  unfold KPort.addWatch
  cases hf : kp.watches.find? (fun w => w.2.1 == path) with
  | some w =>
    simp only [wdActive] at h ⊢
    try simp only []
    rw [any_wd_map_update]
    exact h
  | none =>
    simp only []
    by_cases hv : kp.valid.contains path = true
    · rw [if_pos hv]
      by_cases hm : kp.watches.length < kp.maxWatches
      · rw [if_pos hm]
        simp only [wdActive] at h ⊢
        simp [List.any_cons, h]
      · rw [if_neg hm]; exact h
    · rw [if_neg hv]; exact h

theorem addWatch_new_active (kp : KPort) (path : String) (mask wd : Nat)
    (h : (kp.addWatch path mask).2 = .ok wd) :
    wdActive (kp.addWatch path mask).1 wd = true := by
  unfold KPort.addWatch at h ⊢
  cases hf : kp.watches.find? (fun w => w.2.1 == path) with
  | some w =>
    rw [hf] at h
    simp at h
    simp only [wdActive]
    try simp only []
    rw [any_wd_map_update]
    exact List.any_eq_true.mpr ⟨w, List.mem_of_find?_eq_some hf, by simp [h]⟩
  | none =>
    rw [hf] at h
    try simp only [] at h ⊢
    by_cases hv : kp.valid.contains path = true
    · rw [if_pos hv] at h ⊢
      by_cases hm : kp.watches.length < kp.maxWatches
      · rw [if_pos hm] at h ⊢
        simp at h
        simp [wdActive, h]
      · rw [if_neg hm] at h; simp at h
    · rw [if_neg hv] at h; simp at h

theorem addW_table_mem (kp : KPort) (tbl : List WatchEntry) (path : String) (mask : Nat) :
    ∀ e ∈ (addW kp tbl path mask).2.1, e ∈ tbl ∨ (kp.addWatch path mask).2 = .ok e.wd := by
  intro e he
  revert he
  unfold addW
  cases hr : (kp.addWatch path mask).2 with
  | error er => intro he; exact Or.inl he
  | ok wd =>
    simp only []
    by_cases ht : tbl.any (fun x => x.path == path) = true
    · rw [if_pos ht]
      intro he
      rcases List.mem_map.mp he with ⟨a, ha, hae⟩
      by_cases hap : a.path == path
      · right
        rw [← hae]
        simp [hap]
      · left
        rw [← hae]
        simp only [hap]
        simpa [hap] using ha
    · rw [if_neg ht]
      intro he
      rcases List.mem_append.mp he with hin | hnew
      · exact Or.inl hin
      · right
        have : e = ⟨wd, path, mask, none⟩ := by simpa using hnew
        rw [this]

theorem rmWatch_preserves_active (kp : KPort) (wd x : Nat) (hx : x ≠ wd)
    (h : wdActive kp x = true) : wdActive (kp.rmWatch wd).1 x = true := by
  unfold KPort.rmWatch
  by_cases ha : kp.watches.any (fun w => w.1 == wd) = true
  · rw [if_pos ha]
    simp only [wdActive] at h ⊢
    rcases List.any_eq_true.mp h with ⟨v, hv, hvx⟩
    refine List.any_eq_true.mpr ⟨v, ?_, hvx⟩
    refine List.mem_filter.mpr ⟨hv, ?_⟩
    have hvx' : v.1 = x := by simpa using hvx
    simp [hvx', hx]
  · rw [if_neg ha]; exact h

/-- C8: after every `add` and every `remove`, each WatchId held in the
Watch Table corresponds to a currently active kernel watch — the table and
the kernel watch set stay consistent. -/
theorem add_remove_consistent (kp : KPort) (tbl : List WatchEntry) (path : String)
    (mask wd : Nat) (h : consistentTK kp tbl = true) :
    consistentTK (addW kp tbl path mask).1 (addW kp tbl path mask).2.1 = true ∧
    consistentTK (removeW kp tbl wd).1 (removeW kp tbl wd).2.1 = true := by
  have h' : ∀ e ∈ tbl, wdActive kp e.wd = true := fun e he => List.all_eq_true.mp h e he
  constructor
  · simp only [consistentTK, List.all_eq_true]
    intro e he
    rw [addW_kp_eq]
    rcases addW_table_mem kp tbl path mask e he with hmem | hok
    · exact addWatch_preserves_active kp path mask e.wd (h' e hmem)
    · exact addWatch_new_active kp path mask e.wd hok
  · simp only [consistentTK, List.all_eq_true]
    intro e
    unfold removeW
    cases hl : lookupW tbl wd with
    | none => intro he; exact h' e he
    | some e0 =>
      intro he
      have hmem := List.mem_filter.mp he
      have hne : e.wd ≠ wd := by simpa using hmem.2
      exact rmWatch_preserves_active kp wd e.wd hne (h' e hmem.1)

/-- Witness for C8: one add of a fresh path and one remove of the present
WatchId, from the fixture state. -/
theorem add_remove_consistent_witness :
    consistentTK (addW kp0 tbl0 "/tmp/y" 4).1 (addW kp0 tbl0 "/tmp/y" 4).2.1 = true ∧
    consistentTK (removeW kp0 tbl0 1).1 (removeW kp0 tbl0 1).2.1 = true :=
  add_remove_consistent kp0 tbl0 "/tmp/y" 4 1 (by decide)
